import Mathlib

/-!
Verification development for the futex micro-benchmark repository.

The repository contains two variants of the same benchmark:
* the vector variant (`src/unnamed/part_000`): a `Futex<spinCount>` spinlock,
  worker threads that increment 16 sampled cells of a shared `std::vector<int>`
  inside the lock, and a verifier (`checkSharedData` against the `paragon`);
* the single-counter variant (`src/futex-test/futex-test.cpp`): the same
  spinlock, but each worker increments a *local* `counter`.

This file gives a shallow embedding of both: the pure parts become Lean
functions, the concurrent workload becomes a labelled small-step transition
system over an explicit system state, quantified over all interleavings.
Machine integers: C++ `int`/`long long` values are modelled as `Nat`/`Int`
(signed overflow is undefined behaviour in the source, so the embedding covers
the defined executions); the `unsigned int` spin counter wraps modulo `2 ^ 32`,
which is modelled explicitly.
-/

namespace FutexBench

/-- Sentinel from the `enum` in the vector variant: `DRY_RUN = 0xFFFFFFFF`. -/
def DRY_RUN : Nat := 0xFFFFFFFF

/-- From the `enum` in the vector variant: `CHANGE_COUNT = 0x10`. -/
def CHANGE_COUNT : Nat := 0x10

/-- Size of the shared vector: `std::vector<int> shared_data(0x100000)`. -/
def sharedSize : Nat := 0x100000

/-- Stride of the mutation and check loops: `shared_data.size() / CHANGE_COUNT`. -/
def posStep : Nat := sharedSize / CHANGE_COUNT

/-- Modulus of the `unsigned int` local spin counter `sc` in `Futex::lock`. -/
def UINT_MOD : Nat := 2 ^ 32

/-! ## Memory orders

`Futex<spinCount>::lock` performs
`m_owned.compare_exchange_weak(isOwned, true, std::memory_order_release,
std::memory_order_relaxed)` and `Futex::unlock` performs
`m_owned.store(false, std::memory_order_release)`.  We embed the memory-order
constants that appear at those call sites, together with the C++ standard's
classification of which orders make an operation an acquire operation or a
release operation. -/

/-- The `std::memory_order` enumeration. -/
inductive MemoryOrder where
  | relaxed
  | consume
  | acquire
  | release
  | acq_rel
  | seq_cst
deriving DecidableEq

/-- Success ordering of the compare-and-exchange in `Futex::lock`
(`std::memory_order_release`, `src/unnamed/part_000` line 43). -/
def futexLockSuccessOrder : MemoryOrder := MemoryOrder.release

/-- Failure ordering of the compare-and-exchange in `Futex::lock`
(`std::memory_order_relaxed`, `src/unnamed/part_000` line 44). -/
def futexLockFailureOrder : MemoryOrder := MemoryOrder.relaxed

/-- Ordering of the store in `Futex::unlock`
(`std::memory_order_release`, `src/unnamed/part_000` line 61). -/
def futexUnlockStoreOrder : MemoryOrder := MemoryOrder.release

/-- Per the C++ standard, an atomic operation is an acquire operation exactly
when its order is `acquire`, `acq_rel` or `seq_cst`; only then does it act as
an acquire barrier for the code that follows it. -/
def MemoryOrder.isAcquireOp : MemoryOrder → Bool
  | MemoryOrder.acquire => true
  | MemoryOrder.acq_rel => true
  | MemoryOrder.seq_cst => true
  | _ => false

/-- Per the C++ standard, an atomic operation is a release operation exactly
when its order is `release`, `acq_rel` or `seq_cst`. -/
def MemoryOrder.isReleaseOp : MemoryOrder → Bool
  | MemoryOrder.release => true
  | MemoryOrder.acq_rel => true
  | MemoryOrder.seq_cst => true
  | _ => false

/-! ## The spin/yield policy of `Futex<spinCount>::lock`

One iteration of the retry loop in `lock` (a failed acquisition attempt)
executes:
```
isOwned = false;
if (spinCount == 1) { std::this_thread::yield(); }
else if (spinCount && --sc == 0) { std::this_thread::yield(); }
```
with `sc` a local `unsigned int` initialised to `spinCount` on entry to
`lock`.  `spinFailStep` returns whether that iteration yields, together with
the new value of `sc`. -/

/-- One failed-attempt iteration of the retry loop of `Futex<spinCount>::lock`:
`(yielded, new sc)`.  The decrement `--sc` is `unsigned` arithmetic, so it
wraps modulo `2 ^ 32`. -/
def spinFailStep (spinCount sc : Nat) : Bool × Nat :=
  if spinCount = 1 then (true, sc)
  else if spinCount ≠ 0 then
    (decide ((sc + (UINT_MOD - 1)) % UINT_MOD = 0), (sc + (UINT_MOD - 1)) % UINT_MOD)
  else (false, sc)

/-- Value of the local counter `sc` after `k` failed attempts within a single
call of `lock` (so `sc` starts at `spinCount`). -/
def spinState (spinCount : Nat) : Nat → Nat
  | 0 => spinCount
  | k + 1 => (spinFailStep spinCount (spinState spinCount k)).2

/-- Whether the `k`-th failed attempt (counting from 1) within a single call
of `lock` performs `std::this_thread::yield()`. -/
def yieldAt (spinCount k : Nat) : Bool :=
  (spinFailStep spinCount (spinState spinCount (k - 1))).1

/-! ## The verifier of the vector variant

`performance_test` computes `fullCount = checkSharedData(shared_data)` and
`paragon = perfCount * threadCount * CHANGE_COUNT`, and throws
`std::runtime_error("Lock failed: <fullCount>/<paragon>")` exactly when
`!dry && fullCount != paragon`. -/

/-- The expected total: `perfCount * threadCount * CHANGE_COUNT`
(`src/unnamed/part_000` lines 122-123). -/
def paragon (perfCount threadCount : Nat) : Nat :=
  perfCount * threadCount * CHANGE_COUNT

/-- The text of the `std::runtime_error` built at the throw site
(`src/unnamed/part_000` lines 127-128). -/
def failMessage (fullCount paragonValue : Nat) : String :=
  "Lock failed: " ++ toString fullCount ++ "/" ++ toString paragonValue

/-- The verification step of `performance_test` (lines 125-130): raise the
error exactly when the run is not dry and the observed total differs from the
paragon. -/
def verifyRun (dry : Bool) (fullCount paragonValue : Nat) : Except String Unit :=
  if dry = false ∧ fullCount ≠ paragonValue then
    Except.error (failMessage fullCount paragonValue)
  else Except.ok ()

/-- Whether an `Except` outcome is the raised error. -/
def throwsError : Except String Unit → Bool
  | Except.error _ => true
  | Except.ok _ => false

/-- The lock variants exercised by `all_timings` in the vector variant:
`Futex<spinCount>` (with `spinCount = DRY_RUN` the no-op baseline) and
`std::mutex`. -/
inductive LockKind where
  | futex (spinCount : Nat)
  | stdMutex
deriving DecidableEq

/-- The exception text `performance_test` raises for a failing run with the
given lock variant.  The lock variant is a (template) parameter of the run,
but the message built at the throw site uses only `fullCount` and `paragon`
(`src/unnamed/part_000` lines 127-129). -/
def perfTestThrownMessage (_variant : LockKind) (fullCount paragonValue : Nat) : String :=
  failMessage fullCount paragonValue

/-- The row head printed by `line_test` before any benchmark of its row runs
(`src/unnamed/part_000` lines 162-164). -/
def lineTestHead (threadCount perfCount outOfBusyLoopCount : Nat) : String :=
  toString threadCount ++ "; " ++ toString perfCount ++ "; "
    ++ toString outOfBusyLoopCount ++ "; "

/-- String containment, stated over the underlying character lists. -/
def containsSubstr (s sub : String) : Prop :=
  ∃ pre post : List Char, s.data = pre ++ (sub.data ++ post)

/-! ## The single-counter variant (`src/futex-test/futex-test.cpp`)

Its `check_func` declares `volatile int counter = 0` and `volatile int dummy
= 1` as locals, then runs `perfCount` iterations of: the non-contended busy
loop (`outOfBusyLoopCount` increments of `dummy`), then `++counter` under
`std::lock_guard`.  Both variables are local to the call, so no state is
shared between threads; the lock guards nothing shared.  The worker lambda of
that file's `performance_test` throws `"Lock failed"` when the returned
`counter` differs from `perfCount`. -/

/-- The locals of the single-counter `check_func`. -/
structure CheckFuncLocals where
  counter : Int
  dummy : Int
deriving DecidableEq

/-- The busy loop: `for (j = 0; j < outOfBusyLoopCount; ++j) ++dummy;`. -/
def busyLoop (dummy : Int) : Nat → Int
  | 0 => dummy
  | j + 1 => busyLoop dummy j + 1

/-- One iteration of the main loop of the single-counter `check_func`: run
the busy loop, then `++counter` under the lock. -/
def checkFuncIter (outOfBusyLoopCount : Nat) (st : CheckFuncLocals) : CheckFuncLocals :=
  { dummy := busyLoop st.dummy outOfBusyLoopCount, counter := st.counter + 1 }

/-- The main loop of the single-counter `check_func`, running the remaining
number of iterations. -/
def checkFuncLoop (outOfBusyLoopCount : Nat) (st : CheckFuncLocals) : Nat → CheckFuncLocals
  | 0 => st
  | i + 1 => checkFuncLoop outOfBusyLoopCount (checkFuncIter outOfBusyLoopCount st) i

/-- The single-counter `check_func` (`src/futex-test/futex-test.cpp` lines
52-69): returns the final value of the local `counter`.  The mutex is a
parameter of the call, but `counter` is local, so the returned value does not
depend on it. -/
def check_func (_mutex : LockKind) (perfCount outOfBusyLoopCount : Nat) : Int :=
  (checkFuncLoop outOfBusyLoopCount { counter := 0, dummy := 1 } perfCount).counter

/-- The throw condition of the worker lambda in the single-counter
`performance_test` (lines 82-87): `counter != perfCount`. -/
def workerThrows (mutex : LockKind) (perfCount outOfBusyLoopCount : Nat) : Bool :=
  decide (check_func mutex perfCount outOfBusyLoopCount ≠ (perfCount : Int))

/-! ## The reporter normalization of `line_test`

`line_test` scans the row of timings with
`if (static_cast<double>(timing) < min_time && timing > 0.0) min_time = timing;`
starting from `min_time = 9999999999.0`, then prints
`static_cast<double>(timing) / min_time` for each timing.  The `double`
arithmetic on these integer millisecond values is embedded exactly, over `ℚ`. -/

/-- Initial value of `min_time` in `line_test`. -/
def MIN_TIME_INIT : ℚ := 9999999999

/-- One step of the `min_time` scan of `line_test`. -/
def minTimeStep (m : ℚ) (t : Int) : ℚ :=
  if (t : ℚ) < m ∧ 0 < (t : ℚ) then (t : ℚ) else m

/-- The `min_time` computed by `line_test` over a row of timings. -/
def min_time (timings : List Int) : ℚ :=
  timings.foldl minTimeStep MIN_TIME_INIT

/-- The normalized-ratio column printed by `line_test`. -/
def ratios (timings : List Int) : List ℚ :=
  timings.map fun t : Int => (t : ℚ) / min_time timings

/-! ## The scenario sweep (`generate_tests`)

Both variants build the same shape of parameter matrix: for each
`(base, work)` pair of `lparms`, sixteen tuples with `threadCount` from 1 to
16 and `perfCount = base / threadCount` (C++ `int` division on non-negative
values, i.e. `Nat` division). -/

/-- A `test_params` record: `{threadCount, perfCount, outOfBusyLoopCount}`. -/
structure test_params where
  threadCount : Nat
  perfCount : Nat
  outOfBusyLoopCount : Nat
deriving DecidableEq

/-- The doubly nested loop of `generate_tests`, over a given `lparms` list. -/
def generate_tests_from (lparms : List (Nat × Nat)) : List test_params :=
  lparms.flatMap fun parms =>
    (List.range 16).map fun k =>
      { threadCount := k + 1
        perfCount := parms.1 / (k + 1)
        outOfBusyLoopCount := parms.2 }

/-- The `lparms` table of the vector variant (`src/unnamed/part_000`
lines 195-204). -/
def lparms_vec : List (Nat × Nat) :=
  [(10000000, 0), (1000000, 50), (980000, 200), (950000, 400),
   (900000, 800), (850000, 1200), (700000, 2000), (400000, 10000)]

/-- The `lparms` table of the single-counter variant
(`src/futex-test/futex-test.cpp` lines 156-165). -/
def lparms_single : List (Nat × Nat) :=
  [(100000000, 0), (100000000, 5), (98000000, 20), (95000000, 40),
   (90000000, 80), (85000000, 120), (70000000, 200), (40000000, 1000)]

/-- `generate_tests` of the vector variant. -/
def generate_tests : List test_params := generate_tests_from lparms_vec

/-- `generate_tests` of the single-counter variant. -/
def generate_tests_single : List test_params := generate_tests_from lparms_single

/-! ## The concurrent workload of the vector variant

`performance_test` spawns `threadCount` workers, each running the vector
variant's `check_func`: `perfCount` iterations of (busy loop on a local
`dummy`; `lock_guard` acquire; `for (pos = 0; pos < size; pos += step)
shared_data[pos]++;` release).  We embed this as a labelled small-step
transition system quantified over all interleavings:

* the lock flag `m_owned` is a shared boolean; a non-dry acquire is the
  successful compare-and-exchange (enabled only when the flag is false), a
  failed attempt is a visible `fail` step that only updates the thread's
  local spin counter and possibly yields (a scheduling hint with no state
  effect); the dry (`DRY_RUN`) lock and unlock return immediately and never
  touch the flag;
* each `shared_data[pos]++` of the critical-section loop is split into its
  load and its store, so that without mutual exclusion the model can lose
  updates exactly as the hardware can;
* the busy loop on the local volatile `dummy` has no observable effect on
  shared state and is not part of the system state (its semantics is the
  `busyLoop` function above).
-/

/-- The position of a worker inside the critical-section loop of the vector
variant's `check_func`: about to load `shared_data[pos]`, or holding the
loaded value `tmp` and about to store `tmp + 1`. -/
inductive CsPhase where
  | toLoad (pos : Nat)
  | toStore (pos : Nat) (tmp : Nat)
deriving DecidableEq

/-- The local state of one worker thread: remaining iterations of the main
loop of `check_func` (counting the one in progress), the critical-section
position when the lock is held, and the local spin counter `sc` of the
current `lock` call. -/
structure ThreadSt where
  iters : Nat
  cs : Option CsPhase
  sc : Nat
deriving DecidableEq

/-- Replace the critical-section phase of a worker. -/
def csSet (th : ThreadSt) (c : Option CsPhase) : ThreadSt :=
  { th with cs := c }

/-- Replace the local spin counter of a worker. -/
def scSet (th : ThreadSt) (v : Nat) : ThreadSt :=
  { th with sc := v }

@[simp] theorem csSet_iters (th : ThreadSt) (c : Option CsPhase) :
    (csSet th c).iters = th.iters := rfl

@[simp] theorem csSet_cs (th : ThreadSt) (c : Option CsPhase) :
    (csSet th c).cs = c := rfl

@[simp] theorem csSet_sc (th : ThreadSt) (c : Option CsPhase) :
    (csSet th c).sc = th.sc := rfl

@[simp] theorem scSet_iters (th : ThreadSt) (v : Nat) :
    (scSet th v).iters = th.iters := rfl

@[simp] theorem scSet_cs (th : ThreadSt) (v : Nat) :
    (scSet th v).cs = th.cs := rfl

@[simp] theorem scSet_sc (th : ThreadSt) (v : Nat) :
    (scSet th v).sc = v := rfl

/-- The state shared by one `performance_test` run: the lock flag `m_owned`,
the shared vector (as a map from positions to counts), and the local state of
each of the `T` workers. -/
structure SysState (T : Nat) where
  owned : Bool
  shared : Nat → Nat
  threads : Fin T → ThreadSt

/-- The behaviour a lock variant contributes to the transition system:
whether `lock`/`unlock` are the dry no-ops, whether a visible failed spin
attempt exists (the blocking `std::mutex` just blocks), the failed-attempt
step on the local counter, and the value `unsigned int sc = spinCount` the
counter restarts from on each `lock` call. -/
structure Policy where
  isDry : Bool
  canFail : Bool
  failStep : Nat → Bool × Nat
  scInit : Nat

/-- The policy of `Futex<spinCount>`: dry exactly for `spinCount = DRY_RUN`. -/
def futexPolicy (spinCount : Nat) : Policy :=
  { isDry := decide (spinCount = DRY_RUN)
    canFail := decide (spinCount ≠ DRY_RUN)
    failStep := spinFailStep spinCount
    scInit := spinCount }

/-- The policy of the blocking `std::mutex` baseline: no dry mode and no
visible spinning. -/
def stdMutexPolicy : Policy :=
  { isDry := false
    canFail := false
    failStep := fun sc => (false, sc)
    scInit := 0 }

/-- The policy of each lock variant of `all_timings`. -/
def LockKind.policy : LockKind → Policy
  | LockKind.futex spinCount => futexPolicy spinCount
  | LockKind.stdMutex => stdMutexPolicy

/-- The labels of the transition system. -/
inductive Act where
  | acquire
  | fail (yielded : Bool)
  | load
  | store
  | release
deriving DecidableEq

/-- Build the successor state: new lock flag, new shared vector, and worker
`t` replaced by `th`. -/
def upd {T : Nat} (s : SysState T) (b : Bool) (sh : Nat → Nat) (t : Fin T) (th : ThreadSt) :
    SysState T :=
  { owned := b, shared := sh, threads := Function.update s.threads t th }

/-- One small step of worker `t` under lock policy `p`: `none` when the
labelled action is not enabled in `s`. -/
def applyAct (p : Policy) {T : Nat} (s : SysState T) (t : Fin T) : Act → Option (SysState T)
  | Act.acquire =>
      let th := s.threads t
      if th.cs = none ∧ th.iters ≠ 0 then
        if p.isDry then
          some (upd s s.owned s.shared t (csSet th (some (CsPhase.toLoad 0))))
        else if s.owned = false then
          some (upd s true s.shared t (csSet th (some (CsPhase.toLoad 0))))
        else none
      else none
  | Act.fail y =>
      let th := s.threads t
      if p.canFail ∧ th.cs = none ∧ th.iters ≠ 0 ∧ y = (p.failStep th.sc).1 then
        some (upd s s.owned s.shared t (scSet th ((p.failStep th.sc).2)))
      else none
  | Act.load =>
      let th := s.threads t
      match th.cs with
      | some (CsPhase.toLoad pos) =>
          if pos < sharedSize then
            some (upd s s.owned s.shared t
              (csSet th (some (CsPhase.toStore pos (s.shared pos)))))
          else none
      | _ => none
  | Act.store =>
      let th := s.threads t
      match th.cs with
      | some (CsPhase.toStore pos tmp) =>
          some (upd s s.owned (Function.update s.shared pos (tmp + 1)) t
            (csSet th (some (CsPhase.toLoad (pos + posStep)))))
      | _ => none
  | Act.release =>
      let th := s.threads t
      match th.cs with
      | some (CsPhase.toLoad pos) =>
          if pos < sharedSize then none
          else
            some (upd s (if p.isDry then s.owned else false) s.shared t
              { iters := th.iters - 1, cs := none, sc := p.scInit })
      | _ => none

/-- The state in which `performance_test` spawns the workers: lock free,
vector zero-initialised, every worker with `perfCount` iterations to go. -/
def initState (p : Policy) (T P : Nat) : SysState T :=
  { owned := false
    shared := fun _ => 0
    threads := fun _ => { iters := P, cs := none, sc := p.scInit } }

/-- All states some interleaving of a `performance_test` run with `T` workers
and `perfCount = P` can reach. -/
inductive Reachable (p : Policy) {T : Nat} (P : Nat) : SysState T → Prop where
  | init : Reachable p P (initState p T P)
  | step {s s' : SysState T} {t : Fin T} {a : Act} :
      Reachable p P s → applyAct p s t a = some s' → Reachable p P s'

/-- A state after all workers have finished and been joined. -/
def Terminal {T : Nat} (s : SysState T) : Prop :=
  ∀ t : Fin T, (s.threads t).iters = 0 ∧ (s.threads t).cs = none

/-- Run a whole concrete schedule of labelled steps. -/
def runActs (p : Policy) {T : Nat} (s : SysState T) : List (Fin T × Act) → Option (SysState T)
  | [] => some s
  | ta :: rest =>
      match applyAct p s ta.1 ta.2 with
      | some s' => runActs p s' rest
      | none => none

/-- A schedule that runs to completion only visits reachable states. -/
theorem reachable_of_runActs (p : Policy) {T : Nat} (P : Nat)
    (l : List (Fin T × Act)) :
    ∀ {s s' : SysState T}, Reachable p P s → runActs p s l = some s' →
      Reachable p P s' := by
  induction l with
  | nil =>
      intro s s' hs h
      simp only [runActs, Option.some.injEq] at h
      exact h ▸ hs
  | cons ta rest ih =>
      intro s s' hs h
      simp only [runActs] at h
      cases hstep : applyAct p s ta.1 ta.2 with
      | none => rw [hstep] at h; exact absurd h (by simp)
      | some s1 =>
          rw [hstep] at h
          exact ih (Reachable.step hs hstep) h

/-- The verifier's sum `checkSharedData`, mirroring the loop
`for (pos = 0; pos < size; pos += size/CHANGE_COUNT) count += shared_data[pos];`. -/
def checkFrom (d : Nat → Nat) (pos : Nat) : Nat :=
  if pos < sharedSize then d pos + checkFrom d (pos + posStep)
  else 0
termination_by sharedSize - pos
decreasing_by
  have hp : posStep = 65536 := by norm_num [posStep, sharedSize, CHANGE_COUNT]
  have hs : sharedSize = 1048576 := by norm_num [sharedSize]
  omega

/-- `checkSharedData` of the vector variant (`src/unnamed/part_000` lines
86-93). -/
def checkSharedData (d : Nat → Nat) : Nat := checkFrom d 0

/-! ## Arithmetic facts about the constants -/

theorem posStep_eq : posStep = 65536 := by norm_num [posStep, sharedSize, CHANGE_COUNT]

theorem sharedSize_eq : sharedSize = 1048576 := by norm_num [sharedSize]

theorem CHANGE_COUNT_eq : CHANGE_COUNT = 16 := by norm_num [CHANGE_COUNT]

theorem posStep_pos : 0 < posStep := by rw [posStep_eq]; omega

theorem sharedSize_eq_mul : sharedSize = CHANGE_COUNT * posStep := by
  rw [sharedSize_eq, CHANGE_COUNT_eq, posStep_eq]

theorem sharedSize_div_posStep : sharedSize / posStep = CHANGE_COUNT := by
  rw [sharedSize_eq, posStep_eq, CHANGE_COUNT_eq]

/-- The check loop visits exactly the sixteen sampled positions
`k * posStep`, `k < CHANGE_COUNT`. -/
theorem checkSharedData_eq_sum (d : Nat → Nat) :
    checkSharedData d = ∑ k ∈ Finset.range CHANGE_COUNT, d (k * posStep) := by
  have hstep : ∀ pos : Nat, pos < sharedSize →
      checkFrom d pos = d pos + checkFrom d (pos + 65536) := by
    intro pos h
    rw [checkFrom, posStep_eq]
    simp [h]
  have hend : checkFrom d 1048576 = 0 := by
    rw [checkFrom]
    simp [sharedSize_eq]
  rw [checkSharedData, CHANGE_COUNT_eq, posStep_eq]
  rw [hstep 0 (by rw [sharedSize_eq]; omega)]
  rw [hstep 65536 (by rw [sharedSize_eq]; omega)]
  rw [hstep 131072 (by rw [sharedSize_eq]; omega)]
  rw [hstep 196608 (by rw [sharedSize_eq]; omega)]
  rw [hstep 262144 (by rw [sharedSize_eq]; omega)]
  rw [hstep 327680 (by rw [sharedSize_eq]; omega)]
  rw [hstep 393216 (by rw [sharedSize_eq]; omega)]
  rw [hstep 458752 (by rw [sharedSize_eq]; omega)]
  rw [hstep 524288 (by rw [sharedSize_eq]; omega)]
  rw [hstep 589824 (by rw [sharedSize_eq]; omega)]
  rw [hstep 655360 (by rw [sharedSize_eq]; omega)]
  rw [hstep 720896 (by rw [sharedSize_eq]; omega)]
  rw [hstep 786432 (by rw [sharedSize_eq]; omega)]
  rw [hstep 851968 (by rw [sharedSize_eq]; omega)]
  rw [hstep 917504 (by rw [sharedSize_eq]; omega)]
  rw [hstep 983040 (by rw [sharedSize_eq]; omega)]
  norm_num [hend, Finset.sum_range_succ]
  omega

/-- Updating one sampled position bumps the check sum by exactly one. -/
theorem update_sampled_apply (d : Nat → Nat) (v j k : Nat) :
    Function.update d (j * posStep) v (k * posStep)
      = Function.update (fun i => d (i * posStep)) j v k := by
  by_cases h : k = j
  · subst h; simp
  · have hne : k * posStep ≠ j * posStep := by
      intro hc
      exact h (Nat.eq_of_mul_eq_mul_right posStep_pos hc)
    simp [Function.update_apply, h, hne]

/-- Incrementing one sampled cell increments the sampled sum. -/
theorem sum_sampled_update (d : Nat → Nat) (j : Nat) (hj : j < CHANGE_COUNT) :
    (∑ k ∈ Finset.range CHANGE_COUNT,
        Function.update d (j * posStep) (d (j * posStep) + 1) (k * posStep))
      = (∑ k ∈ Finset.range CHANGE_COUNT, d (k * posStep)) + 1 := by
  have hmem : j ∈ Finset.range CHANGE_COUNT := Finset.mem_range.mpr hj
  rw [Finset.sum_congr rfl (fun k _ => update_sampled_apply d (d (j * posStep) + 1) j k)]
  rw [Finset.sum_update_of_mem hmem]
  rw [Finset.sum_eq_sum_diff_singleton_add hmem (fun i => d (i * posStep))]
  omega

/-! ## Inversion lemmas for the small-step relation -/

theorem applyAct_acquire_eq {p : Policy} {T : Nat} {s s' : SysState T} {t : Fin T}
    (h : applyAct p s t Act.acquire = some s') :
    (s.threads t).cs = none ∧ (s.threads t).iters ≠ 0 ∧
    ((p.isDry = true ∧
       s' = upd s s.owned s.shared t (csSet (s.threads t) (some (CsPhase.toLoad 0)))) ∨
     (p.isDry = false ∧ s.owned = false ∧
       s' = upd s true s.shared t (csSet (s.threads t) (some (CsPhase.toLoad 0))))) := by
  simp only [applyAct] at h
  split at h
  case isTrue h1 =>
    split at h
    case isTrue hdry =>
      exact ⟨h1.1, h1.2, Or.inl ⟨hdry, (Option.some.inj h).symm⟩⟩
    case isFalse hdry =>
      split at h
      case isTrue hown =>
        exact ⟨h1.1, h1.2, Or.inr ⟨by simpa using hdry, hown, (Option.some.inj h).symm⟩⟩
      case isFalse hown => exact absurd h (by simp)
  case isFalse h1 => exact absurd h (by simp)

theorem applyAct_fail_eq {p : Policy} {T : Nat} {s s' : SysState T} {t : Fin T} {y : Bool}
    (h : applyAct p s t (Act.fail y) = some s') :
    p.canFail = true ∧ (s.threads t).cs = none ∧ (s.threads t).iters ≠ 0 ∧
    y = (p.failStep (s.threads t).sc).1 ∧
    s' = upd s s.owned s.shared t
      (scSet (s.threads t) ((p.failStep (s.threads t).sc).2)) := by
  simp only [applyAct] at h
  split at h
  case isTrue h1 =>
    exact ⟨h1.1, h1.2.1, h1.2.2.1, h1.2.2.2, (Option.some.inj h).symm⟩
  case isFalse h1 => exact absurd h (by simp)

theorem applyAct_load_eq {p : Policy} {T : Nat} {s s' : SysState T} {t : Fin T}
    (h : applyAct p s t Act.load = some s') :
    ∃ pos, (s.threads t).cs = some (CsPhase.toLoad pos) ∧ pos < sharedSize ∧
      s' = upd s s.owned s.shared t
        (csSet (s.threads t) (some (CsPhase.toStore pos (s.shared pos)))) := by
  simp only [applyAct] at h
  split at h
  case _ pos heq =>
    split at h
    case isTrue hlt =>
      exact ⟨pos, heq, hlt, (Option.some.inj h).symm⟩
    case isFalse hlt => exact absurd h (by simp)
  case _ => exact absurd h (by simp)

theorem applyAct_store_eq {p : Policy} {T : Nat} {s s' : SysState T} {t : Fin T}
    (h : applyAct p s t Act.store = some s') :
    ∃ pos tmp, (s.threads t).cs = some (CsPhase.toStore pos tmp) ∧
      s' = upd s s.owned (Function.update s.shared pos (tmp + 1)) t
        (csSet (s.threads t) (some (CsPhase.toLoad (pos + posStep)))) := by
  simp only [applyAct] at h
  split at h
  case _ pos tmp heq =>
    exact ⟨pos, tmp, heq, (Option.some.inj h).symm⟩
  case _ => exact absurd h (by simp)

theorem applyAct_release_eq {p : Policy} {T : Nat} {s s' : SysState T} {t : Fin T}
    (h : applyAct p s t Act.release = some s') :
    ∃ pos, (s.threads t).cs = some (CsPhase.toLoad pos) ∧ ¬ pos < sharedSize ∧
      s' = upd s (if p.isDry then s.owned else false) s.shared t
        { iters := (s.threads t).iters - 1, cs := none, sc := p.scInit } := by
  simp only [applyAct] at h
  split at h
  case _ pos heq =>
    split at h
    case isTrue hlt => exact absurd h (by simp)
    case isFalse hlt =>
      exact ⟨pos, heq, hlt, (Option.some.inj h).symm⟩
  case _ => exact absurd h (by simp)

/-! ## The mutual-exclusion invariant

`csDone` counts the increments a worker has already performed inside its
current critical section, `thDone` the increments it has performed since the
run began.  `Inv` is the inductive invariant for non-dry locks: the flag is
down only when nobody is inside a critical section, at most one worker is
inside at a time, the critical-section position is a well-formed sampled
position whose pending loaded value is current, and the check sum equals the
total number of increments performed so far. -/

/-- Completed increments of the current critical-section pass. -/
def csDone : Option CsPhase → Nat
  | none => 0
  | some (CsPhase.toLoad pos) => pos / posStep
  | some (CsPhase.toStore pos _) => pos / posStep

/-- Total increments worker `th` has performed, out of `P` iterations. -/
def thDone (P : Nat) (th : ThreadSt) : Nat :=
  (P - th.iters) * CHANGE_COUNT + csDone th.cs

/-- The inductive invariant of a non-dry `performance_test` run. -/
structure Inv (P : Nat) {T : Nat} (s : SysState T) : Prop where
  owned_none : s.owned = false → ∀ t, (s.threads t).cs = none
  excl : ∀ t1 t2, (s.threads t1).cs ≠ none → (s.threads t2).cs ≠ none → t1 = t2
  iters_le : ∀ t, (s.threads t).iters ≤ P
  cs_iters : ∀ t, (s.threads t).cs ≠ none → (s.threads t).iters ≠ 0
  load_wf : ∀ t pos, (s.threads t).cs = some (CsPhase.toLoad pos) →
      posStep ∣ pos ∧ pos ≤ sharedSize
  store_wf : ∀ t pos tmp, (s.threads t).cs = some (CsPhase.toStore pos tmp) →
      posStep ∣ pos ∧ pos < sharedSize ∧ tmp = s.shared pos
  agg : checkSharedData s.shared = ∑ x : Fin T, thDone P (s.threads x)

/-- Replacing one worker's state shifts the done-count sum by the difference. -/
theorem sum_thDone_update {T : Nat} (P : Nat) (g : Fin T → ThreadSt) (t : Fin T)
    (th : ThreadSt) :
    (∑ x : Fin T, thDone P (Function.update g t th x)) + thDone P (g t)
      = (∑ x : Fin T, thDone P (g x)) + thDone P th := by
  have hfun : (fun x => thDone P (Function.update g t th x))
      = Function.update (fun x => thDone P (g x)) t (thDone P th) := by
    funext x
    exact Function.apply_update (fun _ th0 => thDone P th0) g t th x
  rw [show (∑ x : Fin T, thDone P (Function.update g t th x))
      = ∑ x : Fin T, Function.update (fun y => thDone P (g y)) t (thDone P th) x from by
    rw [← hfun]]
  rw [Finset.sum_update_of_mem (Finset.mem_univ t)]
  rw [Finset.sum_eq_sum_diff_singleton_add (Finset.mem_univ t) (fun x => thDone P (g x))]
  omega

/-- The initial state satisfies the invariant. -/
theorem inv_init (p : Policy) (T P : Nat) : Inv P (initState p T P) := by
  refine ⟨?_, ?_, ?_, ?_, ?_, ?_, ?_⟩
  · intro _ t; rfl
  · intro t1 t2 h1 _; exact absurd rfl h1
  · intro t; exact le_refl P
  · intro t h; exact absurd rfl h
  · intro t pos h; exact absurd h (by simp [initState])
  · intro t pos tmp h; exact absurd h (by simp [initState])
  · rw [checkSharedData_eq_sum]
    simp [initState, thDone, csDone]

/-- A successful non-dry acquire preserves the invariant. -/
theorem inv_acquire {p : Policy} {T P : Nat} {s s' : SysState T} {t : Fin T}
    (hdry : p.isDry = false) (h : applyAct p s t Act.acquire = some s')
    (hinv : Inv P s) : Inv P s' := by
  obtain ⟨hcs, hit, hcase⟩ := applyAct_acquire_eq h
  rcases hcase with ⟨hd, _⟩ | ⟨_, hown, hs'⟩
  · rw [hdry] at hd; exact absurd hd (by simp)
  · have hnone := hinv.owned_none hown
    subst hs'
    refine ⟨?_, ?_, ?_, ?_, ?_, ?_, ?_⟩
    · intro hfalse; exact absurd hfalse (by simp [upd])
    · intro t1 t2 h1 h2
      simp only [upd, Function.update_apply] at h1 h2
      by_cases e1 : t1 = t
      · by_cases e2 : t2 = t
        · rw [e1, e2]
        · rw [if_neg e2] at h2
          exact absurd (hnone t2) h2
      · rw [if_neg e1] at h1
        exact absurd (hnone t1) h1
    · intro x
      simp only [upd, Function.update_apply]
      by_cases e : x = t
      · rw [if_pos e]; simp only [csSet_iters]; exact hinv.iters_le t
      · rw [if_neg e]; exact hinv.iters_le x
    · intro x hx
      simp only [upd, Function.update_apply] at hx ⊢
      by_cases e : x = t
      · rw [if_pos e]; simp only [csSet_iters]; exact hit
      · rw [if_neg e] at hx ⊢; exact hinv.cs_iters x hx
    · intro x pos hx
      simp only [upd, Function.update_apply] at hx
      by_cases e : x = t
      · rw [if_pos e] at hx
        simp only [csSet_cs, Option.some.injEq, CsPhase.toLoad.injEq] at hx
        subst hx
        exact ⟨dvd_zero posStep, Nat.zero_le _⟩
      · rw [if_neg e] at hx; exact hinv.load_wf x pos hx
    · intro x pos tmp hx
      simp only [upd, Function.update_apply] at hx ⊢
      by_cases e : x = t
      · rw [if_pos e] at hx
        exact absurd hx (by simp [csSet_cs])
      · rw [if_neg e] at hx; exact hinv.store_wf x pos tmp hx
    · have hsum := sum_thDone_update P s.threads t
        (csSet (s.threads t) (some (CsPhase.toLoad 0)))
      have hth : thDone P (csSet (s.threads t) (some (CsPhase.toLoad 0)))
          = thDone P (s.threads t) := by
        simp [thDone, csDone, hcs]
      have hagg := hinv.agg
      simp only [upd]
      omega

/-- A failed acquisition attempt only touches the spinning worker's local
counter, so it preserves the invariant. -/
theorem inv_fail {p : Policy} {T P : Nat} {s s' : SysState T} {t : Fin T} {y : Bool}
    (h : applyAct p s t (Act.fail y) = some s') (hinv : Inv P s) : Inv P s' := by
  obtain ⟨_, hcs, _, _, hs'⟩ := applyAct_fail_eq h
  subst hs'
  have hkeep : ∀ x, ((Function.update s.threads t
      (scSet (s.threads t) ((p.failStep (s.threads t).sc).2))) x).cs = (s.threads x).cs ∧
      ((Function.update s.threads t
      (scSet (s.threads t) ((p.failStep (s.threads t).sc).2))) x).iters
        = (s.threads x).iters := by
    intro x
    rw [Function.update_apply]
    by_cases e : x = t
    · rw [if_pos e]; rw [e]; exact ⟨rfl, rfl⟩
    · rw [if_neg e]; exact ⟨rfl, rfl⟩
  refine ⟨?_, ?_, ?_, ?_, ?_, ?_, ?_⟩
  · intro hof x
    simp only [upd] at hof ⊢
    rw [(hkeep x).1]
    exact hinv.owned_none hof x
  · intro t1 t2 h1 h2
    simp only [upd] at h1 h2
    rw [(hkeep t1).1] at h1
    rw [(hkeep t2).1] at h2
    exact hinv.excl t1 t2 h1 h2
  · intro x
    simp only [upd]
    rw [(hkeep x).2]
    exact hinv.iters_le x
  · intro x hx
    simp only [upd] at hx ⊢
    rw [(hkeep x).1] at hx
    rw [(hkeep x).2]
    exact hinv.cs_iters x hx
  · intro x pos hx
    simp only [upd] at hx
    rw [(hkeep x).1] at hx
    exact hinv.load_wf x pos hx
  · intro x pos tmp hx
    simp only [upd] at hx ⊢
    rw [(hkeep x).1] at hx
    exact hinv.store_wf x pos tmp hx
  · have hsum := sum_thDone_update P s.threads t
      (scSet (s.threads t) ((p.failStep (s.threads t).sc).2))
    have hth : thDone P (scSet (s.threads t) ((p.failStep (s.threads t).sc).2))
        = thDone P (s.threads t) := by
      simp [thDone]
    have hagg := hinv.agg
    simp only [upd]
    omega

/-- The load half of `shared_data[pos]++` preserves the invariant. -/
theorem inv_load {p : Policy} {T P : Nat} {s s' : SysState T} {t : Fin T}
    (h : applyAct p s t Act.load = some s') (hinv : Inv P s) : Inv P s' := by
  obtain ⟨pos, heq, hlt, hs'⟩ := applyAct_load_eq h
  have htcs : (s.threads t).cs ≠ none := by rw [heq]; simp
  subst hs'
  have hcsne : ∀ x, ((Function.update s.threads t
      (csSet (s.threads t) (some (CsPhase.toStore pos (s.shared pos))))) x).cs ≠ none →
      (s.threads x).cs ≠ none := by
    intro x hx
    rw [Function.update_apply] at hx
    by_cases e : x = t
    · rw [e]; exact htcs
    · rw [if_neg e] at hx; exact hx
  refine ⟨?_, ?_, ?_, ?_, ?_, ?_, ?_⟩
  · intro hof _
    simp only [upd] at hof
    exact absurd (hinv.owned_none hof t) htcs
  · intro t1 t2 h1 h2
    simp only [upd] at h1 h2
    exact hinv.excl t1 t2 (hcsne t1 h1) (hcsne t2 h2)
  · intro x
    simp only [upd, Function.update_apply]
    by_cases e : x = t
    · rw [if_pos e]; simp only [csSet_iters]; exact hinv.iters_le t
    · rw [if_neg e]; exact hinv.iters_le x
  · intro x hx
    simp only [upd, Function.update_apply] at hx ⊢
    by_cases e : x = t
    · rw [if_pos e]; simp only [csSet_iters]; exact hinv.cs_iters t htcs
    · rw [if_neg e] at hx ⊢; exact hinv.cs_iters x hx
  · intro x pos2 hx
    simp only [upd, Function.update_apply] at hx
    by_cases e : x = t
    · rw [if_pos e] at hx
      simp only [csSet_cs] at hx
      exact absurd hx (by simp)
    · rw [if_neg e] at hx; exact hinv.load_wf x pos2 hx
  · intro x pos2 tmp2 hx
    simp only [upd, Function.update_apply] at hx ⊢
    by_cases e : x = t
    · rw [if_pos e] at hx
      simp only [csSet_cs, Option.some.injEq, CsPhase.toStore.injEq] at hx
      obtain ⟨hp, ht2⟩ := hx
      subst hp
      subst ht2
      exact ⟨(hinv.load_wf t pos heq).1, hlt, rfl⟩
    · rw [if_neg e] at hx; exact hinv.store_wf x pos2 tmp2 hx
  · have hsum := sum_thDone_update P s.threads t
      (csSet (s.threads t) (some (CsPhase.toStore pos (s.shared pos))))
    have hth : thDone P (csSet (s.threads t) (some (CsPhase.toStore pos (s.shared pos))))
        = thDone P (s.threads t) := by
      simp [thDone, csDone, heq]
    have hagg := hinv.agg
    simp only [upd]
    omega

/-- The store half of `shared_data[pos]++` preserves the invariant: by mutual
exclusion the pending loaded value is still current, so the increment adds
exactly one to the sampled sum. -/
theorem inv_store {p : Policy} {T P : Nat} {s s' : SysState T} {t : Fin T}
    (h : applyAct p s t Act.store = some s') (hinv : Inv P s) : Inv P s' := by
  obtain ⟨pos, tmp, heq, hs'⟩ := applyAct_store_eq h
  obtain ⟨hdvd, hplt, htmp⟩ := hinv.store_wf t pos tmp heq
  have htcs : (s.threads t).cs ≠ none := by rw [heq]; simp
  obtain ⟨j, hj0⟩ := hdvd
  have hj2 : pos = 65536 * j := by rw [hj0, posStep_eq]
  have hplt2 : pos < 1048576 := by rw [← sharedSize_eq]; exact hplt
  have hj16n : j < 16 := by omega
  have hj16 : j < CHANGE_COUNT := by rw [CHANGE_COUNT_eq]; exact hj16n
  have hj1 : pos = j * posStep := by rw [hj0, Nat.mul_comm]
  have hple : pos + posStep ≤ sharedSize := by rw [posStep_eq, sharedSize_eq]; omega
  subst hs'
  have hcsne : ∀ x, ((Function.update s.threads t
      (csSet (s.threads t) (some (CsPhase.toLoad (pos + posStep))))) x).cs ≠ none →
      (s.threads x).cs ≠ none := by
    intro x hx
    rw [Function.update_apply] at hx
    by_cases e : x = t
    · rw [e]; exact htcs
    · rw [if_neg e] at hx; exact hx
  refine ⟨?_, ?_, ?_, ?_, ?_, ?_, ?_⟩
  · intro hof _
    simp only [upd] at hof
    exact absurd (hinv.owned_none hof t) htcs
  · intro t1 t2 h1 h2
    simp only [upd] at h1 h2
    exact hinv.excl t1 t2 (hcsne t1 h1) (hcsne t2 h2)
  · intro x
    simp only [upd, Function.update_apply]
    by_cases e : x = t
    · rw [if_pos e]; simp only [csSet_iters]; exact hinv.iters_le t
    · rw [if_neg e]; exact hinv.iters_le x
  · intro x hx
    simp only [upd, Function.update_apply] at hx ⊢
    by_cases e : x = t
    · rw [if_pos e]; simp only [csSet_iters]; exact hinv.cs_iters t htcs
    · rw [if_neg e] at hx ⊢; exact hinv.cs_iters x hx
  · intro x pos2 hx
    simp only [upd, Function.update_apply] at hx
    by_cases e : x = t
    · rw [if_pos e] at hx
      simp only [csSet_cs, Option.some.injEq, CsPhase.toLoad.injEq] at hx
      subst hx
      exact ⟨Nat.dvd_add (hj0 ▸ Dvd.intro j rfl) (dvd_refl posStep), hple⟩
    · rw [if_neg e] at hx; exact hinv.load_wf x pos2 hx
  · intro x pos2 tmp2 hx
    simp only [upd, Function.update_apply] at hx ⊢
    by_cases e : x = t
    · rw [if_pos e] at hx
      simp only [csSet_cs] at hx
      exact absurd hx (by simp)
    · rw [if_neg e] at hx
      have hxcs : (s.threads x).cs ≠ none := by rw [hx]; simp
      exact absurd (hinv.excl x t hxcs htcs) e
  · have hsum := sum_thDone_update P s.threads t
      (csSet (s.threads t) (some (CsPhase.toLoad (pos + posStep))))
    have hth : thDone P (csSet (s.threads t) (some (CsPhase.toLoad (pos + posStep))))
        = thDone P (s.threads t) + 1 := by
      simp only [thDone, csDone, csSet_iters, csSet_cs, heq]
      rw [Nat.add_div_right pos posStep_pos]
      omega
    have hnew : checkSharedData (Function.update s.shared pos (tmp + 1))
        = checkSharedData s.shared + 1 := by
      rw [checkSharedData_eq_sum, checkSharedData_eq_sum, htmp, hj1]
      exact sum_sampled_update s.shared j hj16
    have hagg := hinv.agg
    simp only [upd]
    omega

/-- The unlock at the end of the critical section preserves the invariant:
the worker has performed exactly `CHANGE_COUNT` increments this pass. -/
theorem inv_release {p : Policy} {T P : Nat} {s s' : SysState T} {t : Fin T}
    (hdry : p.isDry = false) (h : applyAct p s t Act.release = some s')
    (hinv : Inv P s) : Inv P s' := by
  obtain ⟨pos, heq, hnlt, hs'⟩ := applyAct_release_eq h
  have htcs : (s.threads t).cs ≠ none := by rw [heq]; simp
  have hiter := hinv.cs_iters t htcs
  have hle := hinv.iters_le t
  obtain ⟨hdvd, hposle⟩ := hinv.load_wf t pos heq
  have hpos : pos = sharedSize := by omega
  have hs'2 : s' = upd s false s.shared t
      { iters := (s.threads t).iters - 1, cs := none, sc := p.scInit } := by
    rw [hs', hdry]
    simp
  subst hs'2
  refine ⟨?_, ?_, ?_, ?_, ?_, ?_, ?_⟩
  · intro _ x
    simp only [upd, Function.update_apply]
    by_cases e : x = t
    · rw [if_pos e]
    · rw [if_neg e]
      by_contra hne
      exact e (hinv.excl x t hne htcs)
  · intro t1 t2 h1 h2
    simp only [upd, Function.update_apply] at h1 h2
    by_cases e1 : t1 = t
    · rw [if_pos e1] at h1
      exact absurd rfl h1
    · rw [if_neg e1] at h1
      by_cases e2 : t2 = t
      · rw [if_pos e2] at h2
        exact absurd rfl h2
      · rw [if_neg e2] at h2
        exact hinv.excl t1 t2 h1 h2
  · intro x
    simp only [upd, Function.update_apply]
    by_cases e : x = t
    · rw [if_pos e]
      show (s.threads t).iters - 1 ≤ P
      have := hinv.iters_le t
      omega
    · rw [if_neg e]; exact hinv.iters_le x
  · intro x hx
    simp only [upd, Function.update_apply] at hx ⊢
    by_cases e : x = t
    · rw [if_pos e] at hx
      exact absurd rfl hx
    · rw [if_neg e] at hx ⊢; exact hinv.cs_iters x hx
  · intro x pos2 hx
    simp only [upd, Function.update_apply] at hx
    by_cases e : x = t
    · rw [if_pos e] at hx
      exact absurd hx (by simp)
    · rw [if_neg e] at hx; exact hinv.load_wf x pos2 hx
  · intro x pos2 tmp2 hx
    simp only [upd, Function.update_apply] at hx ⊢
    by_cases e : x = t
    · rw [if_pos e] at hx
      exact absurd hx (by simp)
    · rw [if_neg e] at hx; exact hinv.store_wf x pos2 tmp2 hx
  · have hsum := sum_thDone_update P s.threads t
      { iters := (s.threads t).iters - 1, cs := none, sc := p.scInit }
    have hth : thDone P { iters := (s.threads t).iters - 1, cs := none, sc := p.scInit }
        = thDone P (s.threads t) := by
      simp only [thDone, csDone, heq, hpos, sharedSize_div_posStep]
      rw [CHANGE_COUNT_eq]
      omega
    have hagg := hinv.agg
    simp only [upd]
    omega

/-- Every step of a non-dry run preserves the invariant. -/
theorem inv_step {p : Policy} {T P : Nat} {s s' : SysState T} {t : Fin T} {a : Act}
    (hdry : p.isDry = false) (h : applyAct p s t a = some s') (hinv : Inv P s) :
    Inv P s' := by
  cases a with
  | acquire => exact inv_acquire hdry h hinv
  | fail y => exact inv_fail h hinv
  | load => exact inv_load h hinv
  | store => exact inv_store h hinv
  | release => exact inv_release hdry h hinv

/-- Every reachable state of a non-dry run satisfies the invariant. -/
theorem inv_reachable {p : Policy} {T P : Nat} (hdry : p.isDry = false)
    {s : SysState T} (h : Reachable p P s) : Inv P s := by
  induction h with
  | init => exact inv_init p T P
  | step hr hstep ih => exact inv_step hdry hstep ih

/-! ## Claim theorems: the exclusivity invariant, the verifier, the state
machine -/

/-- C1: for every lock variant except the no-op dry baseline and for every
TestParameters, after any complete interleaving of a `performance_test` run
the check sum over the shared vector equals
`iterationCount * threadCount * CHANGE_COUNT` (the lock provided exclusion on
every run, not merely on average). -/
theorem exclusivity_invariant (L : LockKind) (hL : L.policy.isDry = false)
    (tp : test_params) (s : SysState tp.threadCount)
    (hreach : Reachable L.policy tp.perfCount s) (hterm : Terminal s) :
    checkSharedData s.shared = tp.perfCount * tp.threadCount * CHANGE_COUNT := by
  have hinv := inv_reachable hL hreach
  rw [hinv.agg]
  have hth : ∀ x : Fin tp.threadCount,
      thDone tp.perfCount (s.threads x) = tp.perfCount * CHANGE_COUNT := by
    intro x
    obtain ⟨h1, h2⟩ := hterm x
    simp [thDone, csDone, h1, h2]
  rw [Finset.sum_congr rfl fun x _ => hth x]
  rw [Finset.sum_const, Finset.card_univ, Fintype.card_fin, smul_eq_mul]
  ring

/-- A complete one-worker one-iteration schedule: acquire, sixteen
load-store pairs, release. -/
def c1Schedule : List (Fin 1 × Act) :=
  ((0, Act.acquire) : Fin 1 × Act) ::
    ((List.range CHANGE_COUNT).flatMap fun _ => [(0, Act.load), (0, Act.store)])
      ++ [(0, Act.release)]

instance : Inhabited (SysState 1) := ⟨initState stdMutexPolicy 1 0⟩

/-- The state at the end of `c1Schedule` under `Futex<0>`. -/
def c1FinalState : SysState 1 :=
  (runActs (futexPolicy 0) (initState (futexPolicy 0) 1 1) c1Schedule).getD default

theorem exclusivity_invariant_witness :
    checkSharedData c1FinalState.shared = 1 * 1 * CHANGE_COUNT := by
  have hrun : runActs (futexPolicy 0) (initState (futexPolicy 0) 1 1) c1Schedule
      = some c1FinalState := by rfl
  have hreach := reachable_of_runActs (futexPolicy 0) 1 c1Schedule Reachable.init hrun
  have hterm : Terminal c1FinalState := by
    intro t
    have ht : t = 0 := Subsingleton.elim t 0
    subst ht
    exact ⟨by rfl, by rfl⟩
  exact exclusivity_invariant (LockKind.futex 0) rfl
    { threadCount := 1, perfCount := 1, outOfBusyLoopCount := 0 } c1FinalState hreach hterm

/-- C2: `performance_test` raises its runtime error exactly when the run is
not the dry baseline and the observed aggregate of the shared vector differs
from the paragon `perfCount * threadCount * CHANGE_COUNT`; on the dry
baseline the comparison is skipped and no error is ever raised. -/
theorem verifier_throws_iff :
    (∀ (dry : Bool) (T : Nat) (s : SysState T) (P : Nat),
      (throwsError (verifyRun dry (checkSharedData s.shared) (paragon P T)) = true ↔
        dry = false ∧ checkSharedData s.shared ≠ paragon P T)) ∧
    (∀ fullCount paragonValue : Nat,
      verifyRun true fullCount paragonValue = Except.ok ()) := by
  constructor
  · intro dry T s P
    by_cases h : dry = false ∧ checkSharedData s.shared ≠ paragon P T
    · rw [verifyRun, if_pos h]
      exact iff_of_true rfl h
    · rw [verifyRun, if_neg h]
      exact iff_of_false (by simp [throwsError]) h
  · intro f p
    rw [verifyRun, if_neg]
    simp

/-- C8: for a non-dry lock, the flag starts Unlocked, the only transition to
Locked is the successful compare-and-exchange of an acquire (from Unlocked),
the only transition to Unlocked is a release, which stores `false`
regardless of the current state, and no other action modifies the flag. -/
theorem lock_state_machine (p : Policy) (hp : p.isDry = false) (T P : Nat) :
    (initState p T P).owned = false ∧
    (∀ (s s' : SysState T) (t : Fin T) (a : Act), applyAct p s t a = some s' →
      s'.owned = s.owned ∨
      (a = Act.acquire ∧ s.owned = false ∧ s'.owned = true) ∨
      (a = Act.release ∧ s'.owned = false)) ∧
    (∀ (s s' : SysState T) (t : Fin T), applyAct p s t Act.release = some s' →
      s'.owned = false) := by
  have hrel : ∀ (s s' : SysState T) (t : Fin T), applyAct p s t Act.release = some s' →
      s'.owned = false := by
    intro s s' t h
    obtain ⟨pos, _, _, hs'⟩ := applyAct_release_eq h
    rw [hs', hp]
    simp [upd]
  refine ⟨rfl, ?_, hrel⟩
  intro s s' t a h
  cases a with
  | acquire =>
      obtain ⟨_, _, hcase⟩ := applyAct_acquire_eq h
      rcases hcase with ⟨hd, _⟩ | ⟨_, hown, hs'⟩
      · rw [hp] at hd; exact absurd hd (by simp)
      · exact Or.inr (Or.inl ⟨rfl, hown, by rw [hs']; rfl⟩)
  | fail y =>
      obtain ⟨_, _, _, _, hs'⟩ := applyAct_fail_eq h
      exact Or.inl (by rw [hs']; rfl)
  | load =>
      obtain ⟨pos, _, _, hs'⟩ := applyAct_load_eq h
      exact Or.inl (by rw [hs']; rfl)
  | store =>
      obtain ⟨pos, tmp, _, hs'⟩ := applyAct_store_eq h
      exact Or.inl (by rw [hs']; rfl)
  | release =>
      exact Or.inr (Or.inr ⟨rfl, hrel s s' t h⟩)

theorem lock_state_machine_witness :
    (initState (LockKind.futex 0).policy 1 1).owned = false :=
  (lock_state_machine (LockKind.futex 0).policy rfl 1 1).1

/-! ## Bounded spin with n = 1 versus the always-yield policy (C9)

The spin counter `sc` is dead state for both policies (`Futex<1>` takes the
`spinCount == 1` branch and never reads `sc`); erasing it gives a strong
bisimulation between the two transition systems. -/

/-- Modelled from the spec: the AlwaysYield spin policy — the thread yields
its scheduling slot after every failed acquisition attempt; the policy has no
spin counter, so the (unused) counter field stays at 0. -/
def specAlwaysYieldPolicy : Policy :=
  { isDry := false
    canFail := true
    failStep := fun sc => (true, sc)
    scInit := 0 }

/-- Overwrite every worker's spin counter with `c`. -/
def mapSc {T : Nat} (c : Nat) (s : SysState T) : SysState T :=
  { owned := s.owned, shared := s.shared, threads := fun x => scSet (s.threads x) c }

theorem SysState.ext2 {T : Nat} {s1 s2 : SysState T} (h1 : s1.owned = s2.owned)
    (h2 : s1.shared = s2.shared) (h3 : s1.threads = s2.threads) : s1 = s2 := by
  cases s1; cases s2; simp_all

theorem csSet_scSet (u : ThreadSt) (c : Nat) (v : Option CsPhase) :
    csSet (scSet u c) v = scSet (csSet u v) c := rfl

theorem update_scSet_comm {T : Nat} (g : Fin T → ThreadSt) (t : Fin T)
    (th : ThreadSt) (c : Nat) :
    Function.update (fun x => scSet (g x) c) t (scSet th c)
      = fun x => scSet ((Function.update g t th) x) c := by
  funext x
  rw [Function.update_apply]
  by_cases e : x = t
  · rw [if_pos e, e, Function.update_same]
  · rw [if_neg e, Function.update_noteq e]

/-- Counter erasure is a strong simulation between two lock policies that
agree on dryness, on visible spinning, and whose failed attempts always carry
the same yield label. -/
theorem applyAct_mapSc {p q : Policy} {T : Nat} {s s' : SysState T} {t : Fin T}
    {a : Act} (c : Nat)
    (hdry : q.isDry = p.isDry) (hcf : q.canFail = p.canFail)
    (hy : ∀ u v : Nat, (q.failStep u).1 = (p.failStep v).1)
    (hq2 : (q.failStep c).2 = c) (hqi : q.scInit = c)
    (h : applyAct p s t a = some s') :
    applyAct q (mapSc c s) t a = some (mapSc c s') := by
  cases a with
  | acquire =>
      obtain ⟨hcs, hit, hcase⟩ := applyAct_acquire_eq h
      have hth : ((mapSc c s).threads t).cs = none ∧ ((mapSc c s).threads t).iters ≠ 0 := by
        simp only [mapSc, scSet_cs, scSet_iters]
        exact ⟨hcs, hit⟩
      rcases hcase with ⟨hd, hs'⟩ | ⟨hd, hown, hs'⟩
      · subst hs'
        simp only [applyAct]
        rw [if_pos hth, if_pos (by rw [hdry, hd])]
        congr 1
        refine SysState.ext2 rfl rfl ?_
        show Function.update (fun x => scSet (s.threads x) c) t
            (csSet (scSet (s.threads t) c) (some (CsPhase.toLoad 0))) = _
        rw [csSet_scSet, update_scSet_comm]
        rfl
      · subst hs'
        simp only [applyAct]
        rw [if_pos hth, if_neg (by rw [hdry, hd]; simp)]
        rw [if_pos (show (mapSc c s).owned = false from hown)]
        congr 1
        refine SysState.ext2 rfl rfl ?_
        show Function.update (fun x => scSet (s.threads x) c) t
            (csSet (scSet (s.threads t) c) (some (CsPhase.toLoad 0))) = _
        rw [csSet_scSet, update_scSet_comm]
        rfl
  | fail y =>
      obtain ⟨hcfp, hcs, hit, hy1, hs'⟩ := applyAct_fail_eq h
      subst hs'
      simp only [applyAct]
      rw [if_pos]
      · congr 1
        refine SysState.ext2 rfl rfl ?_
        show Function.update (fun x => scSet (s.threads x) c) t
            (scSet (scSet (s.threads t) c) ((q.failStep (scSet (s.threads t) c).sc).2)) = _
        have hsc2 : (scSet (scSet (s.threads t) c) ((q.failStep (scSet (s.threads t) c).sc).2))
            = scSet (scSet (s.threads t) ((p.failStep (s.threads t).sc).2)) c := by
          simp only [scSet_sc]
          show scSet (scSet (s.threads t) c) ((q.failStep c).2) = _
          rw [hq2]
          rfl
        rw [hsc2, update_scSet_comm]
        rfl
      · refine ⟨by rw [hcf, hcfp], ?_, ?_, ?_⟩
        · simp only [mapSc, scSet_cs]; exact hcs
        · simp only [mapSc, scSet_iters]; exact hit
        · simp only [mapSc, scSet_sc]
          rw [hy1]
          exact (hy c (s.threads t).sc).symm
  | load =>
      obtain ⟨pos, heq, hlt, hs'⟩ := applyAct_load_eq h
      subst hs'
      have hthcs : ((mapSc c s).threads t).cs = some (CsPhase.toLoad pos) := by
        simp only [mapSc, scSet_cs]; exact heq
      simp only [applyAct, hthcs]
      rw [if_pos hlt]
      congr 1
      refine SysState.ext2 rfl rfl ?_
      show Function.update (fun x => scSet (s.threads x) c)
          t (csSet (scSet (s.threads t) c)
            (some (CsPhase.toStore pos ((mapSc c s).shared pos)))) = _
      rw [csSet_scSet, update_scSet_comm]
      rfl
  | store =>
      obtain ⟨pos, tmp, heq, hs'⟩ := applyAct_store_eq h
      subst hs'
      have hthcs : ((mapSc c s).threads t).cs = some (CsPhase.toStore pos tmp) := by
        simp only [mapSc, scSet_cs]; exact heq
      simp only [applyAct, hthcs]
      congr 1
      refine SysState.ext2 rfl rfl ?_
      show Function.update (fun x => scSet (s.threads x) c)
          t (csSet (scSet (s.threads t) c) (some (CsPhase.toLoad (pos + posStep)))) = _
      rw [csSet_scSet, update_scSet_comm]
      rfl
  | release =>
      obtain ⟨pos, heq, hnlt, hs'⟩ := applyAct_release_eq h
      subst hs'
      have hthcs : ((mapSc c s).threads t).cs = some (CsPhase.toLoad pos) := by
        simp only [mapSc, scSet_cs]; exact heq
      simp only [applyAct, hthcs]
      rw [if_neg hnlt]
      congr 1
      refine SysState.ext2 ?_ rfl ?_
      · show (if q.isDry then (mapSc c s).owned else false) = _
        rw [hdry]
        rfl
      · show Function.update (fun x => scSet (s.threads x) c)
            t { iters := (scSet (s.threads t) c).iters - 1, cs := none, sc := q.scInit } = _
        rw [hqi]
        rw [show ({ iters := (scSet (s.threads t) c).iters - 1, cs := none, sc := c } : ThreadSt)
            = scSet { iters := (s.threads t).iters - 1, cs := none, sc := p.scInit } c from rfl]
        rw [update_scSet_comm]
        rfl

/-- Counter erasure maps reachable states to reachable states. -/
theorem reachable_mapSc {p q : Policy} {T P : Nat} (c : Nat)
    (hdry : q.isDry = p.isDry) (hcf : q.canFail = p.canFail)
    (hy : ∀ u v : Nat, (q.failStep u).1 = (p.failStep v).1)
    (hq2 : (q.failStep c).2 = c) (hqi : q.scInit = c)
    {s : SysState T} (h : Reachable p P s) : Reachable q P (mapSc c s) := by
  induction h with
  | init =>
      have hinit : mapSc c (initState p T P) = initState q T P := by
        refine SysState.ext2 rfl rfl ?_
        funext x
        show scSet { iters := P, cs := none, sc := p.scInit } c
            = ({ iters := P, cs := none, sc := q.scInit } : ThreadSt)
        rw [hqi]
        rfl
      rw [hinit]
      exact Reachable.init
  | step hr hstep ih =>
      exact Reachable.step ih (applyAct_mapSc c hdry hcf hy hq2 hqi hstep)

/-- C9: `Futex<1>` (the bounded-spin policy with bound n = 1) yields after
every failed acquisition attempt, exactly as the spec's AlwaysYield policy
does, and the two transition systems reach exactly the same completed-run
shared states, so the correctness of the resulting shared state is identical. -/
theorem bounded_one_equals_always_yield :
    (∀ sc : Nat, (futexPolicy 1).failStep sc = (true, sc)) ∧
    (∀ (T P : Nat) (d : Nat → Nat),
      ((∃ s : SysState T, Reachable (futexPolicy 1) P s ∧ Terminal s ∧ s.shared = d) ↔
       (∃ s : SysState T, Reachable specAlwaysYieldPolicy P s ∧ Terminal s ∧ s.shared = d))) := by
  have hterm : ∀ (T c : Nat) (s : SysState T), Terminal s → Terminal (mapSc c s) := by
    intro T c s h x
    exact h x
  constructor
  · intro sc; rfl
  · intro T P d
    constructor
    · rintro ⟨s, hr, ht, hd⟩
      refine ⟨mapSc 0 s, ?_, hterm T 0 s ht, hd⟩
      exact @reachable_mapSc (futexPolicy 1) specAlwaysYieldPolicy T P 0 rfl rfl
        (fun u v => rfl) rfl rfl s hr
    · rintro ⟨s, hr, ht, hd⟩
      refine ⟨mapSc 1 s, ?_, hterm T 1 s ht, hd⟩
      exact @reachable_mapSc specAlwaysYieldPolicy (futexPolicy 1) T P 1 rfl rfl
        (fun u v => rfl) rfl rfl s hr

/-! ## Memory-order claim (C3) and the spin counter pattern (C4) -/

/-- C3: the compare-and-exchange that implements a successful acquisition is
ordered `memory_order_release`, which is not an acquire operation, so a
successful `lock` is not an acquire barrier as the ordering contract demands;
the unlock store is ordered `memory_order_release` and is a correct release
barrier. -/
theorem futex_lock_success_order_not_acquire :
    futexLockSuccessOrder = MemoryOrder.release ∧
    futexLockSuccessOrder.isAcquireOp = false ∧
    futexLockFailureOrder.isAcquireOp = false ∧
    futexUnlockStoreOrder.isReleaseOp = true :=
  ⟨rfl, rfl, rfl, rfl⟩

/-- Closed form of the spin counter after `k` failed attempts, for a genuine
bounded-spin count (neither 0, 1, nor the dry sentinel behaviour). -/
theorem spinState_closed (n : Nat) (h1 : n ≠ 1) (h0 : n ≠ 0) (hlt : n < UINT_MOD) :
    ∀ k, spinState n k = (n + (UINT_MOD - 1) * k) % UINT_MOD := by
  intro k
  induction k with
  | zero =>
      show n = (n + (UINT_MOD - 1) * 0) % UINT_MOD
      rw [Nat.mul_zero, Nat.add_zero, Nat.mod_eq_of_lt hlt]
  | succ m ih =>
      show (spinFailStep n (spinState n m)).2 = _
      rw [ih]
      simp only [spinFailStep, if_neg h1, if_pos h0]
      rw [Nat.mod_add_mod]
      have harg : n + (UINT_MOD - 1) * m + (UINT_MOD - 1)
          = n + (UINT_MOD - 1) * (m + 1) := by ring
      rw [harg]

/-- The wrapped counter hits zero exactly when the attempt index is congruent
to `n` modulo `2 ^ 32`. -/
theorem yield_mod_iff (n k : Nat) (hn : n < UINT_MOD) :
    ((n + (UINT_MOD - 1) * k) % UINT_MOD = 0 ↔ k % UINT_MOD = n) := by
  have hM : UINT_MOD = 4294967296 := by norm_num [UINT_MOD]
  rw [hM] at hn ⊢
  omega

theorem yieldAt_closed (n k : Nat) (h1 : n ≠ 1) (h0 : n ≠ 0) (hlt : n < UINT_MOD)
    (hk : 1 ≤ k) :
    yieldAt n k = decide ((n + (UINT_MOD - 1) * k) % UINT_MOD = 0) := by
  rw [yieldAt, spinState_closed n h1 h0 hlt]
  simp only [spinFailStep, if_neg h1, if_pos h0]
  rw [Nat.mod_add_mod]
  have hsub : k - 1 + 1 = k := by omega
  have harg : n + (UINT_MOD - 1) * (k - 1) + (UINT_MOD - 1)
      = n + (UINT_MOD - 1) * k := by
    calc n + (UINT_MOD - 1) * (k - 1) + (UINT_MOD - 1)
        = n + (UINT_MOD - 1) * (k - 1 + 1) := by ring
      _ = n + (UINT_MOD - 1) * k := by rw [hsub]
  rw [harg]

/-- C4 counterexample: with bound n = 2, the claim predicts a yield on every
2nd failed attempt of an acquire — in particular on the 4th — but the code
yields on the 2nd failed attempt and then not on the 4th: the local counter
is not reset to n after the yield. -/
theorem bounded_spin_reset_cex :
    (2 : Nat) ∣ 4 ∧ yieldAt 2 2 = true ∧ yieldAt 2 4 = false := by
  refine ⟨⟨2, rfl⟩, by decide, by decide⟩

/-- C4 amended: under BoundedSpin(n) with 1 < n < 2^32, within one acquire a
yield occurs on the k-th failed attempt exactly when k ≡ n (mod 2^32): the
thread retries n times, yields once on the n-th failed attempt, and — the
counter wrapping around instead of being reset — yields again only after
every further 2^32 failed attempts. -/
theorem bounded_spin_yield_pattern (n k : Nat) (h1 : 1 < n) (h2 : n < UINT_MOD)
    (hk : 1 ≤ k) :
    yieldAt n k = true ↔ k % UINT_MOD = n := by
  rw [yieldAt_closed n k (by omega) (by omega) h2 hk]
  rw [decide_eq_true_iff]
  exact yield_mod_iff n k h2

theorem bounded_spin_yield_pattern_witness : yieldAt 2 2 = true := by
  exact (bounded_spin_yield_pattern 2 2 (by omega) (by norm_num [UINT_MOD])
    (by omega)).mpr (by decide)

/-! ## The reporter normalization (C5) -/

theorem minTimeFold_le (ts : List Int) : ∀ m : ℚ, ts.foldl minTimeStep m ≤ m := by
  induction ts with
  | nil => intro m; exact le_refl m
  | cons a ts ih =>
      intro m
      rw [List.foldl_cons]
      calc ts.foldl minTimeStep (minTimeStep m a) ≤ minTimeStep m a := ih _
        _ ≤ m := by
          rw [minTimeStep]
          split
          case isTrue h => exact le_of_lt h.1
          case isFalse h => exact le_refl m

theorem minTimeFold_le_mem (ts : List Int) :
    ∀ (m : ℚ) (t : Int), t ∈ ts → 0 < (t : ℚ) → ts.foldl minTimeStep m ≤ (t : ℚ) := by
  induction ts with
  | nil => intro m t ht _; exact absurd ht (List.not_mem_nil t)
  | cons a ts ih =>
      intro m t ht hpos
      rw [List.foldl_cons]
      rcases List.mem_cons.mp ht with heq | hmem
      · rw [heq] at hpos ⊢
        by_cases h : (a : ℚ) < m ∧ 0 < (a : ℚ)
        · calc ts.foldl minTimeStep (minTimeStep m a) ≤ minTimeStep m a := minTimeFold_le ts _
            _ = (a : ℚ) := by rw [minTimeStep, if_pos h]
        · have hm : m ≤ (a : ℚ) := by
            rcases not_and_or.mp h with h1 | h2
            · exact le_of_not_lt h1
            · exact absurd hpos h2
          calc ts.foldl minTimeStep (minTimeStep m a) ≤ minTimeStep m a := minTimeFold_le ts _
            _ = m := by rw [minTimeStep, if_neg h]
            _ ≤ (a : ℚ) := hm
      · exact ih _ t hmem hpos

theorem minTimeFold_attained (ts : List Int) :
    ∀ m : ℚ, ts.foldl minTimeStep m = m ∨
      ∃ t ∈ ts, ts.foldl minTimeStep m = (t : ℚ) ∧ 0 < (t : ℚ) := by
  induction ts with
  | nil => intro m; exact Or.inl rfl
  | cons a ts ih =>
      intro m
      rw [List.foldl_cons]
      by_cases h : (a : ℚ) < m ∧ 0 < (a : ℚ)
      · rcases ih (minTimeStep m a) with h1 | ⟨t, hmem, heq, hpos⟩
        · right
          refine ⟨a, List.mem_cons_self a ts, ?_, h.2⟩
          rw [h1, minTimeStep, if_pos h]
        · exact Or.inr ⟨t, List.mem_cons_of_mem a hmem, heq, hpos⟩
      · rcases ih (minTimeStep m a) with h1 | ⟨t, hmem, heq, hpos⟩
        · left
          rw [h1, minTimeStep, if_neg h]
        · exact Or.inr ⟨t, List.mem_cons_of_mem a hmem, heq, hpos⟩

theorem minTimeFold_pos (ts : List Int) :
    ∀ m : ℚ, 0 < m → 0 < ts.foldl minTimeStep m := by
  induction ts with
  | nil => intro m hm; exact hm
  | cons a ts ih =>
      intro m hm
      rw [List.foldl_cons]
      apply ih
      rw [minTimeStep]
      split
      case isTrue h => exact h.2
      case isFalse h => exact hm

/-- C5 counterexample: the row of timings [5, 5, 7, 9] (a tie for the
minimum) produces two entries equal to 1.0 in the normalized-ratio column,
not exactly one. -/
theorem ratios_exactly_one_cex : (ratios [5, 5, 7, 9]).count 1 = 2 := by
  norm_num [ratios, min_time, minTimeStep, MIN_TIME_INIT, List.foldl,
    List.count_cons, List.count_nil]

/-- C5 amended: in a row with at least one positive timing below the
`9999999999.0` sentinel, the normalized-ratio column contains one entry equal
to 1.0 for every timing attaining `min_time` — hence at least one, and
exactly one precisely when the minimum is attained by a single timing. -/
theorem ratios_ones_count (timings : List Int) (t0 : Int) (h0 : t0 ∈ timings)
    (hpos : 0 < t0) (hsent : (t0 : ℚ) < MIN_TIME_INIT) :
    (ratios timings).count 1
        = timings.countP (fun t : Int => decide ((t : ℚ) = min_time timings)) ∧
      1 ≤ (ratios timings).count 1 := by
  have hposQ : 0 < (t0 : ℚ) := by exact_mod_cast hpos
  have hmpos : 0 < min_time timings :=
    minTimeFold_pos timings MIN_TIME_INIT (by norm_num [MIN_TIME_INIT])
  have hmne : min_time timings ≠ 0 := ne_of_gt hmpos
  have hcount : (ratios timings).count 1
      = timings.countP (fun t : Int => decide ((t : ℚ) = min_time timings)) := by
    rw [ratios, List.count_eq_countP, List.countP_map]
    apply List.countP_congr
    intro t _
    simp only [Function.comp, beq_iff_eq, decide_eq_true_iff]
    exact div_eq_one_iff_eq hmne
  refine ⟨hcount, ?_⟩
  rw [hcount]
  have hmem : ∃ t ∈ timings, min_time timings = (t : ℚ) ∧ 0 < (t : ℚ) := by
    rcases minTimeFold_attained timings MIN_TIME_INIT with h1 | h2
    · exfalso
      have hle : min_time timings ≤ (t0 : ℚ) := minTimeFold_le_mem timings _ t0 h0 hposQ
      have h1b : min_time timings = MIN_TIME_INIT := h1
      rw [h1b] at hle
      exact absurd (lt_of_le_of_lt hle hsent) (lt_irrefl _)
    · exact h2
  obtain ⟨t, hmem2, heq, _⟩ := hmem
  apply Nat.succ_le_of_lt
  apply List.countP_pos_iff.mpr
  exact ⟨t, hmem2, decide_eq_true heq.symm⟩

/-- C5 witness row: with timings [5, 7] the minimum is unique, so exactly one
normalized entry equals 1.0. -/
theorem ratios_ones_count_witness :
    ((ratios [5, 7]).count 1
        = [5, 7].countP (fun t : Int => decide ((t : ℚ) = min_time [5, 7])) ∧
      1 ≤ (ratios [5, 7]).count 1) :=
  ratios_ones_count [5, 7] 5 (by simp) (by norm_num) (by norm_num [MIN_TIME_INIT])

/-! ## The failure output (C6) -/

/-- C6 counterexample: two distinct lock variants failing with the same
counts produce identical thrown messages, so the failure output does not name
the lock variant. -/
theorem failure_names_variant_cex :
    perfTestThrownMessage (LockKind.futex 0) 984 1000
        = perfTestThrownMessage LockKind.stdMutex 984 1000 ∧
      LockKind.futex 0 ≠ LockKind.stdMutex :=
  ⟨rfl, by decide⟩

/-- C6 amended: the thrown message contains the actual and expected totals,
the row head printed by line_test before the failure contains the parameter
tuple, and the thrown message is independent of which lock variant failed. -/
theorem failure_output_contents (v1 v2 : LockKind)
    (threadCount perfCount outOfBusyLoopCount fullCount paragonValue : Nat) :
    perfTestThrownMessage v1 fullCount paragonValue
        = perfTestThrownMessage v2 fullCount paragonValue ∧
    containsSubstr (perfTestThrownMessage v1 fullCount paragonValue)
      (toString fullCount) ∧
    containsSubstr (perfTestThrownMessage v1 fullCount paragonValue)
      (toString paragonValue) ∧
    containsSubstr (lineTestHead threadCount perfCount outOfBusyLoopCount)
      (toString threadCount) ∧
    containsSubstr (lineTestHead threadCount perfCount outOfBusyLoopCount)
      (toString perfCount) ∧
    containsSubstr (lineTestHead threadCount perfCount outOfBusyLoopCount)
      (toString outOfBusyLoopCount) := by
  refine ⟨rfl, ?_, ?_, ?_, ?_, ?_⟩
  · exact ⟨"Lock failed: ".data, ("/" ++ toString paragonValue).data, by
      simp [perfTestThrownMessage, failMessage, String.data_append]⟩
  · exact ⟨("Lock failed: " ++ toString fullCount ++ "/").data, [], by
      simp [perfTestThrownMessage, failMessage, String.data_append]⟩
  · exact ⟨[], ("; " ++ toString perfCount ++ "; "
        ++ toString outOfBusyLoopCount ++ "; ").data, by
      simp [lineTestHead, String.data_append]⟩
  · exact ⟨(toString threadCount ++ "; ").data, ("; "
        ++ toString outOfBusyLoopCount ++ "; ").data, by
      simp [lineTestHead, String.data_append]⟩
  · exact ⟨(toString threadCount ++ "; " ++ toString perfCount ++ "; ").data,
      "; ".data, by
      simp [lineTestHead, String.data_append]⟩

/-! ## The scenario sweep (C7) -/

set_option maxRecDepth 4000 in
/-- C7: both variants of `generate_tests` produce a fixed ordered list of 128
tuples; within each of the eight work-shape groups the entries run through
`threadCount` = 1..16 in order with `perfCount = base / threadCount`, so
`perfCount * threadCount` stays within one integer-division remainder of the
group's base count. -/
theorem generate_tests_structure :
    generate_tests.length = 128 ∧ generate_tests_single.length = 128 ∧
    (∀ g ∈ List.range 8, ∀ j ∈ List.range 16,
      generate_tests[16 * g + j]? =
        some { threadCount := j + 1
               perfCount := (lparms_vec.getD g (0, 0)).1 / (j + 1)
               outOfBusyLoopCount := (lparms_vec.getD g (0, 0)).2 } ∧
      ((lparms_vec.getD g (0, 0)).1 / (j + 1)) * (j + 1) ≤ (lparms_vec.getD g (0, 0)).1 ∧
      (lparms_vec.getD g (0, 0)).1
        < ((lparms_vec.getD g (0, 0)).1 / (j + 1)) * (j + 1) + (j + 1)) ∧
    (∀ g ∈ List.range 8, ∀ j ∈ List.range 16,
      generate_tests_single[16 * g + j]? =
        some { threadCount := j + 1
               perfCount := (lparms_single.getD g (0, 0)).1 / (j + 1)
               outOfBusyLoopCount := (lparms_single.getD g (0, 0)).2 } ∧
      ((lparms_single.getD g (0, 0)).1 / (j + 1)) * (j + 1)
          ≤ (lparms_single.getD g (0, 0)).1 ∧
      (lparms_single.getD g (0, 0)).1
        < ((lparms_single.getD g (0, 0)).1 / (j + 1)) * (j + 1) + (j + 1)) := by
  refine ⟨by decide, by decide, by decide, by decide⟩

theorem generate_tests_structure_witness :
    generate_tests[0]? = some { threadCount := 1, perfCount := 10000000
                                outOfBusyLoopCount := 0 } :=
  ((generate_tests_structure.2.2.1 0 (by decide) 0 (by decide)).1)

/-! ## The single-counter variant (C10) -/

theorem checkFuncLoop_counter (o : Nat) :
    ∀ (n : Nat) (st : CheckFuncLocals),
      (checkFuncLoop o st n).counter = st.counter + (n : Int) := by
  intro n
  induction n with
  | zero => intro st; simp [checkFuncLoop]
  | succ m ih =>
      intro st
      show (checkFuncLoop o (checkFuncIter o st) m).counter = st.counter + ((m : Nat) + 1 : Nat)
      rw [ih]
      show st.counter + 1 + (m : Int) = st.counter + (((m : Nat) + 1 : Nat) : Int)
      push_cast
      ring

/-- C10: the single-counter `check_func` returns exactly `perfCount` for
every mutex type and all `perfCount`, `outOfBusyLoopCount` — its counter is
local to the call, not shared — so the worker's `"Lock failed"` throw branch
is unreachable and this variant can never detect a lost update. -/
theorem check_func_counts_locally (mutex : LockKind)
    (perfCount outOfBusyLoopCount : Nat) :
    check_func mutex perfCount outOfBusyLoopCount = (perfCount : Int) ∧
    workerThrows mutex perfCount outOfBusyLoopCount = false := by
  have h : check_func mutex perfCount outOfBusyLoopCount = (perfCount : Int) := by
    rw [check_func, checkFuncLoop_counter]
    ring
  refine ⟨h, ?_⟩
  rw [workerThrows]
  simp [h]

end FutexBench
